import Mathlib

/-!
Verification of the LIF phase-locking script
(`src/neurons/Romain_2004_LIF_phase_locking.py`).

The script simulates a population of leaky integrate-and-fire neurons
under constant-plus-oscillatory drive.  Its core is a single `update`
rule: one explicit-Euler step along the membrane derivative
`(-V + inputs + 2*sin(2*pi*t/tau))/tau`, a threshold test producing a
0/1 spike indicator, and a reset of spiking units to `Vr`.  We embed
the state vectors, the derivative, the Euler step, the update rule and
the run loop over the reals, together with the post-hoc spike-phase
computation `(t % tau) / tau`, and prove the specified properties.
-/

namespace RomainLIF

/-- The full mutable/immutable state the update rule touches or reads:
the membrane-potential vector `V` (`bm.zeros(size)` at start), the
spike-indicator vector `spike` (`bm.zeros(size)` at start), and the
module-level per-unit drive vector `inputs`, which the update reads
but never writes. -/
structure SimState (n : ℕ) where
  V : Fin n → ℝ
  spike : Fin n → ℝ
  inputs : Fin n → ℝ

/-- The right-hand side of the membrane equation, from
`LIF.derivative`: `(-V + inputs + 2 * bm.sin(2 * bm.pi * t / tau)) / tau`,
elementwise over the population. -/
noncomputable def derivative {n : ℕ} (inputs : Fin n → ℝ) (tau : ℝ)
    (V : Fin n → ℝ) (t : ℝ) : Fin n → ℝ :=
  fun i => (-V i + inputs i + 2 * Real.sin (2 * Real.pi * t / tau)) / tau

/-- One fixed step of the integrator produced by `bp.odeint` (default
method: explicit Euler with the global step size `dt`):
`V + dt * f(V, t)`, elementwise. -/
noncomputable def odeint {n : ℕ} (f : (Fin n → ℝ) → ℝ → Fin n → ℝ)
    (dt : ℝ) (V : Fin n → ℝ) (t : ℝ) : Fin n → ℝ :=
  fun i => V i + dt * f V t i

/-- One call of `LIF.update`: advance `V` one integrator step to the
candidate vector, overwrite `spike` with
`bm.asarray(V >= Vth, dtype=bm.float_)` (1.0 where the candidate is at
or above threshold, else 0.0), and overwrite `V` with
`bm.where(self.spike > 0., Vr, V)` using the freshly written spike
vector.  The drive vector is only read. -/
noncomputable def LIF.update {n : ℕ} (tau Vth Vr dt : ℝ)
    (s : SimState n) (t : ℝ) : SimState n :=
  let V := odeint (derivative s.inputs tau) dt s.V t
  let spike := fun i => if Vth ≤ V i then (1 : ℝ) else 0
  { V := fun i => if 0 < spike i then Vr else V i
    spike := spike
    inputs := s.inputs }

/-- `LIF.__init__`: both state vectors start as `bm.zeros(size)`; the
drive vector is the module-level `inputs` array, passed here
explicitly. -/
noncomputable def LIF.init (size : ℕ) (inputs : Fin size → ℝ) : SimState size :=
  { V := fun _ => 0, spike := fun _ => 0, inputs := inputs }

/-- The simulation loop driven by `bp.StructRunner`: step `k` calls
`update` at time `t = k * dt`, starting from the initial state. -/
noncomputable def run {n : ℕ} (tau Vth Vr dt : ℝ) (s0 : SimState n) :
    ℕ → SimState n
  | 0 => s0
  | k + 1 => LIF.update tau Vth Vr dt (run tau Vth Vr dt s0 k) (k * dt)

/-- Module-level population size `num = 2000`. -/
def num : ℕ := 2000

/-- Module-level time constant `tau = 100.` (ms). -/
noncomputable def tau : ℝ := 100

/-- Module-level threshold `Vth = 1.` (mV). -/
noncomputable def Vth : ℝ := 1

/-- Module-level reset value `Vr = 0.` (mV). -/
noncomputable def Vr : ℝ := 0

/-- Module-level drive vector `inputs = bm.linspace(2., 4., num)`:
entry `i` is `2 + i * (4 - 2) / (num - 1)`. -/
noncomputable def inputs : Fin num → ℝ :=
  fun i => 2 + (i : ℝ) * (4 - 2) / ((num : ℝ) - 1)

/-- The fixed step size: the script never overrides the library
default `dt = 0.1` (ms). -/
noncomputable def dt : ℝ := 1 / 10

/-- The oscillation period of the sinusoidal drive.  The script uses
the time constant `tau` itself as the period in
`2 * bm.sin(2 * bm.pi * t / tau)` and in the phase computation. -/
noncomputable def period : ℝ := tau

/-- The concrete simulation the script runs: population `num` with
drive `inputs`, stepped from the all-zero initial state. -/
noncomputable def codeRun : ℕ → SimState num :=
  run tau Vth Vr dt (LIF.init num inputs)

/-- Python float `%` for a positive modulus: `a - b * floor(a / b)`. -/
noncomputable def pymod (a b : ℝ) : ℝ := a - b * ⌊a / b⌋

/-- The analysis line `spike_phases = (times % tau) / tau`. -/
noncomputable def spike_phases (t : ℝ) : ℝ := pymod t tau / tau

/-- Helper: the drive vector is carried through `run` unchanged. -/
theorem run_inputs {n : ℕ} (tau Vth Vr dt : ℝ) (s0 : SimState n) :
    ∀ k, (run tau Vth Vr dt s0 k).inputs = s0.inputs := by
  intro k
  induction k with
  | zero => rfl
  | succ k ih => simpa [run, LIF.update] using ih

/-- C2: the right-hand side used by the integrator equals, elementwise,
`(-V[i] + drive[i] + 2*sin(2*pi*t/period)) / tau` with the fixed
oscillation period and time constant. -/
theorem derivative_formula (V : Fin num → ℝ) (t : ℝ) (i : Fin num) :
    derivative inputs tau V t i =
      (-V i + inputs i + 2 * Real.sin (2 * Real.pi * t / period)) / tau := rfl

/-- C1: one update computes the candidate `V'` by a single integrator
step along the derivative, sets the spike indicator to 1.0 exactly
where `V' ≥ Vth` and 0.0 otherwise, sets the next potential to `Vr`
where the indicator is set and to `V'` otherwise, and consequently
every unit whose indicator is 1.0 ends the step at exactly `Vr`. -/
theorem update_threshold_reset {n : ℕ} (tau Vth Vr dt : ℝ)
    (s : SimState n) (t : ℝ) :
    (∀ i, (LIF.update tau Vth Vr dt s t).spike i =
        if Vth ≤ odeint (derivative s.inputs tau) dt s.V t i then 1 else 0) ∧
    (∀ i, (LIF.update tau Vth Vr dt s t).V i =
        if 0 < (LIF.update tau Vth Vr dt s t).spike i then Vr
        else odeint (derivative s.inputs tau) dt s.V t i) ∧
    (∀ i, (LIF.update tau Vth Vr dt s t).spike i = 1 →
        (LIF.update tau Vth Vr dt s t).V i = Vr) := by
  refine ⟨fun i => rfl, fun i => rfl, fun i h => ?_⟩
  simp only [LIF.update] at h ⊢
  by_cases hth : Vth ≤ odeint (derivative s.inputs tau) dt s.V t i
  · simp [hth]
  · simp only [hth, if_false] at h
    norm_num at h

/-- C5: after any update, every entry of the spike indicator is either
0.0 or 1.0. -/
theorem update_spike_binary {n : ℕ} (tau Vth Vr dt : ℝ)
    (s : SimState n) (t : ℝ) (i : Fin n) :
    (LIF.update tau Vth Vr dt s t).spike i = 0 ∨
    (LIF.update tau Vth Vr dt s t).spike i = 1 := by
  simp only [LIF.update]
  by_cases h : Vth ≤ odeint (derivative s.inputs tau) dt s.V t i
  · exact Or.inr (by simp [h])
  · exact Or.inl (by simp [h])

/-- C9: at construction, for every size, both state vectors are
all-zero vectors of that length: every unit's potential equals the
reset value `Vr = 0` and no unit is marked as spiking. -/
theorem init_zero (size : ℕ) (inp : Fin size → ℝ) (i : Fin size) :
    (LIF.init size inp).V i = 0 ∧ (LIF.init size inp).V i = Vr ∧
    (LIF.init size inp).spike i = 0 := by
  refine ⟨rfl, ?_, rfl⟩
  simp [LIF.init, Vr]

/-- C6: an update writes only the two state vectors; the drive vector
is identical before and after every step, and across any entire run it
equals the initial drive vector. -/
theorem update_inputs_invariant :
    (∀ (n : ℕ) (tau Vth Vr dt : ℝ) (s : SimState n) (t : ℝ),
      (LIF.update tau Vth Vr dt s t).inputs = s.inputs) ∧
    (∀ (n : ℕ) (tau Vth Vr dt : ℝ) (s0 : SimState n) (k : ℕ),
      (run tau Vth Vr dt s0 k).inputs = s0.inputs) :=
  ⟨fun _ _ _ _ _ _ _ => rfl, fun _ tau Vth Vr dt s0 k => run_inputs tau Vth Vr dt s0 k⟩

/-- C10: provided `Vr < Vth`, after any update every unit's potential
is strictly below threshold: spiking units were reset to `Vr` and
non-spiking units hold a candidate potential below `Vth`. -/
theorem update_V_lt_Vth {n : ℕ} (tau Vth Vr dt : ℝ)
    (s : SimState n) (t : ℝ) (h : Vr < Vth) (i : Fin n) :
    (LIF.update tau Vth Vr dt s t).V i < Vth := by
  simp only [LIF.update]
  by_cases hth : Vth ≤ odeint (derivative s.inputs tau) dt s.V t i
  · simp [hth, h]
  · simp only [hth, if_false]
    norm_num
    exact lt_of_not_le hth

/-- Witness for C10 at the script's parameters with a one-unit state. -/
theorem update_V_lt_Vth_witness :
    (LIF.update 100 1 0 (1 / 10) (LIF.init 1 fun _ => 3) 0).V ⟨0, by norm_num⟩ < 1 :=
  update_V_lt_Vth 100 1 0 (1 / 10) (LIF.init 1 fun _ => 3) 0 (by norm_num) ⟨0, by norm_num⟩

/-- Helper: for a positive modulus, the Python-style remainder divided
by the modulus is the fractional part of the quotient. -/
theorem pymod_div_eq_fract (t p : ℝ) (hp : 0 < p) :
    pymod t p / p = Int.fract (t / p) := by
  rw [pymod, Int.fract, sub_div, mul_comm, mul_div_assoc, div_self hp.ne', mul_one]

/-- Helper: the normalized remainder lies in `[0, 1)`. -/
theorem pymod_div_mem (t p : ℝ) (hp : 0 < p) :
    0 ≤ pymod t p / p ∧ pymod t p / p < 1 := by
  rw [pymod_div_eq_fract t p hp]
  exact ⟨Int.fract_nonneg _, Int.fract_lt_one _⟩

/-- C8: for every spike time `t ≥ 0` and every positive period `p`,
the phase `(t mod p) / p` lies in `[0, 1)`; in particular the phases
the script computes with period `tau` lie in `[0, 1)`. -/
theorem spike_phase_in_Ico (t p : ℝ) (ht : 0 ≤ t) (hp : 0 < p) :
    (0 ≤ pymod t p / p ∧ pymod t p / p < 1) ∧
    (0 ≤ spike_phases t ∧ spike_phases t < 1) := by
  refine ⟨pymod_div_mem t p hp, ?_⟩
  have htau : (0 : ℝ) < tau := by norm_num [tau]
  simpa [spike_phases] using pymod_div_mem t tau htau

/-- Witness for C8 at `t = 3`, `p = 100`. -/
theorem spike_phase_in_Ico_witness :
    (0 ≤ pymod 3 100 / 100 ∧ pymod 3 100 / 100 < 1) ∧
    (0 ≤ spike_phases 3 ∧ spike_phases 3 < 1) :=
  spike_phase_in_Ico 3 100 (by norm_num) (by norm_num)

/-- A trajectory of the simulation: starts at `s0` and makes one
`update` call per step, at time `k * dt` for step `k`. -/
def IsRun {n : ℕ} (tau Vth Vr dt : ℝ) (s0 : SimState n) (f : ℕ → SimState n) : Prop :=
  f 0 = s0 ∧ ∀ k, f (k + 1) = LIF.update tau Vth Vr dt (f k) (k * dt)

/-- C7: the update rule is a deterministic function of state and time:
any two trajectories with the same parameters, step size and initial
state coincide at every step, so the recorded spike traces are
identical. -/
theorem run_deterministic {n : ℕ} (tau Vth Vr dt : ℝ) (s0 : SimState n)
    (f g : ℕ → SimState n) (hf : IsRun tau Vth Vr dt s0 f)
    (hg : IsRun tau Vth Vr dt s0 g) (k : ℕ) :
    f k = g k ∧ (f k).spike = (g k).spike := by
  have h : ∀ m, f m = g m := by
    intro m
    induction m with
    | zero => rw [hf.1, hg.1]
    | succ m ih => rw [hf.2, hg.2, ih]
  exact ⟨h k, by rw [h k]⟩

/-- Witness for C7: the canonical run is a trajectory, hence equal to
itself at step 5. -/
theorem run_deterministic_witness :
    run 100 1 0 (1 / 10) (LIF.init 1 fun _ => 3) 5 =
      run 100 1 0 (1 / 10) (LIF.init 1 fun _ => 3) 5 ∧
    (run 100 1 0 (1 / 10) (LIF.init 1 fun _ => 3) 5).spike =
      (run 100 1 0 (1 / 10) (LIF.init 1 fun _ => 3) 5).spike :=
  run_deterministic 100 1 0 (1 / 10) (LIF.init 1 fun _ => 3) _ _
    ⟨rfl, fun _ => rfl⟩ ⟨rfl, fun _ => rfl⟩ 5

/-- Helper: one update keeps every potential at or above the reset
value, provided `0 ≤ dt ≤ tau` and every drive is at least `Vr + 2`
(so the drive dominates the worst-case oscillatory term `-2`). -/
theorem update_V_ge {n : ℕ} (tauP VthP VrP dtP : ℝ) (s : SimState n) (t : ℝ)
    (hdt : 0 ≤ dtP) (hdtau : dtP ≤ tauP) (htau : 0 < tauP)
    (hinp : ∀ i, VrP + 2 ≤ s.inputs i) (hV : ∀ i, VrP ≤ s.V i) (i : Fin n) :
    VrP ≤ (LIF.update tauP VthP VrP dtP s t).V i := by
  have hs : -1 ≤ Real.sin (2 * Real.pi * t / tauP) := Real.neg_one_le_sin _
  have hc0 : 0 ≤ dtP / tauP := div_nonneg hdt htau.le
  have hc1 : dtP / tauP ≤ 1 := (div_le_one htau).mpr hdtau
  have hcand : VrP ≤ odeint (derivative s.inputs tauP) dtP s.V t i := by
    have hkey : odeint (derivative s.inputs tauP) dtP s.V t i - VrP =
        (1 - dtP / tauP) * (s.V i - VrP) +
          (dtP / tauP) *
            (s.inputs i + 2 * Real.sin (2 * Real.pi * t / tauP) - VrP) := by
      simp only [odeint, derivative]
      field_simp
      ring
    have h1 : 0 ≤ (1 - dtP / tauP) * (s.V i - VrP) :=
      mul_nonneg (by linarith) (by linarith [hV i])
    have h2 : 0 ≤ (dtP / tauP) *
        (s.inputs i + 2 * Real.sin (2 * Real.pi * t / tauP) - VrP) :=
      mul_nonneg hc0 (by linarith [hinp i])
    linarith [hkey, h1, h2]
  simp only [LIF.update]
  by_cases hth : VthP ≤ odeint (derivative s.inputs tauP) dtP s.V t i
  · simp [hth]
  · simpa [hth] using hcand

/-- Helper: every entry of the script's drive vector is at least 2. -/
theorem inputs_ge_two (i : Fin num) : (2 : ℝ) ≤ inputs i := by
  have h0 : (0 : ℝ) ≤ (i : ℝ) * (4 - 2) / ((num : ℝ) - 1) := by
    have : ((num : ℝ) - 1) = 1999 := by norm_num [num]
    rw [this]
    positivity
  simp only [inputs]
  linarith

/-- C4: in the script's simulation, every reachable state (the initial
state and every state after any number of updates) has every unit's
potential at or above the reset value `Vr`. -/
theorem codeRun_V_ge_Vr (k : ℕ) (i : Fin num) : Vr ≤ (codeRun k).V i := by
  induction k generalizing i with
  | zero =>
    simp [codeRun, run, LIF.init, Vr]
  | succ k ih =>
    have hstep : codeRun (k + 1) =
        LIF.update tau Vth Vr dt (codeRun k) (k * dt) := rfl
    rw [hstep]
    refine update_V_ge tau Vth Vr dt (codeRun k) (k * dt) ?_ ?_ ?_ ?_ ?_ i
    · norm_num [dt]
    · norm_num [dt, tau]
    · norm_num [tau]
    · intro j
      have hj : (codeRun k).inputs j = inputs j := by
        have := run_inputs tau Vth Vr dt (LIF.init num inputs) k
        simp only [codeRun]
        rw [this]
        rfl
      rw [hj, Vr]
      simpa using inputs_ge_two j
    · intro j
      exact ih j

/-- The end-to-end test scenario: population size 1, drive 3.0,
`tau = period = 100`, `Vth = 1`, `Vr = 0`, `dt = 0.1`, started from
the all-zero state. -/
noncomputable def scenarioRun : ℕ → SimState 1 :=
  run 100 1 0 (1 / 10) (LIF.init 1 fun _ => 3)

/-- The pre-reset integrated potential of step `k` of the scenario:
the candidate vector the update computes before thresholding. -/
noncomputable def scenarioPreV (k : ℕ) : Fin 1 → ℝ :=
  odeint (derivative (scenarioRun k).inputs 100) (1 / 10)
    (scenarioRun k).V ((k : ℝ) * (1 / 10))

/-- Helper: the scenario drive vector stays constant at 3. -/
theorem scenario_inputs (k : ℕ) (i : Fin 1) : (scenarioRun k).inputs i = 3 := by
  have h := run_inputs 100 1 0 (1 / 10) (LIF.init 1 fun _ => 3) k
  simp only [scenarioRun]
  rw [h]
  rfl

/-- Helper: the spike indicator written at step `k` of the scenario is
the threshold test on the pre-reset potential. -/
theorem scenario_step_spike (k : ℕ) (i : Fin 1) :
    (scenarioRun (k + 1)).spike i =
      if (1 : ℝ) ≤ scenarioPreV k i then 1 else 0 := rfl

/-- Helper: on a no-spike step, the pre-reset potential stays below
threshold and becomes the next potential. -/
theorem scenario_noSpike (k : ℕ) (h : (scenarioRun (k + 1)).spike 0 ≠ 1) :
    scenarioPreV k 0 < 1 ∧ (scenarioRun (k + 1)).V 0 = scenarioPreV k 0 := by
  by_cases hth : (1 : ℝ) ≤ scenarioPreV k 0
  · exact absurd (by rw [scenario_step_spike k 0, if_pos hth]) h
  · refine ⟨lt_of_not_le hth, ?_⟩
    have hv : (scenarioRun (k + 1)).V 0 =
        if 0 < (if (1 : ℝ) ≤ scenarioPreV k 0 then (1 : ℝ) else 0) then 0
        else scenarioPreV k 0 := rfl
    rw [hv, if_neg hth]
    norm_num

/-- Helper: the explicit scalar recurrence of the scenario. -/
theorem scenario_preV_eq (k : ℕ) :
    scenarioPreV k 0 = (scenarioRun k).V 0 +
      (1 / 10) * ((-(scenarioRun k).V 0 + 3 +
        2 * Real.sin (2 * Real.pi * ((k : ℝ) * (1 / 10)) / 100)) / 100) := by
  simp only [scenarioPreV, odeint, derivative]
  rw [scenario_inputs k 0]

/-- Helper: the sinusoidal term is nonnegative during the first half
period of the scenario (steps 0 through 500). -/
theorem scenario_sin_nonneg (k : ℕ) (hk : k ≤ 500) :
    0 ≤ Real.sin (2 * Real.pi * ((k : ℝ) * (1 / 10)) / 100) := by
  have hang : 2 * Real.pi * ((k : ℝ) * (1 / 10)) / 100 =
      Real.pi * ((k : ℝ) / 500) := by ring
  rw [hang]
  apply Real.sin_nonneg_of_nonneg_of_le_pi
  · positivity
  · have hk1 : (k : ℝ) / 500 ≤ 1 := by
      rw [div_le_one (by norm_num)]
      exact_mod_cast hk
    nlinarith [Real.pi_pos]

/-- Helper: while no spike has occurred, the scenario potential grows
at least geometrically towards the drive value 3. -/
theorem scenario_lower : ∀ N : ℕ, N ≤ 500 →
    (∀ k < N, (scenarioRun (k + 1)).spike 0 ≠ 1) →
    3 * (1 - ((999 : ℝ) / 1000) ^ N) ≤ (scenarioRun N).V 0 := by
  intro N
  induction N with
  | zero =>
    intro _ _
    norm_num [scenarioRun, run, LIF.init]
  | succ N ih =>
    intro hN hns
    have hIH := ih (by omega) (fun k hk => hns k (by omega))
    obtain ⟨hlt, hVeq⟩ := scenario_noSpike N (hns N (Nat.lt_succ_self N))
    have hpre := scenario_preV_eq N
    have hsin : 0 ≤ Real.sin (2 * Real.pi * ((N : ℝ) * (1 / 10)) / 100) :=
      scenario_sin_nonneg N (by omega)
    rw [hVeq, hpre, pow_succ]
    nlinarith [hIH, hsin]

/-- C3: in the end-to-end scenario (size 1, drive 3.0, tau 100,
period 100, Vth 1, Vr 0, dt 0.1), running 1000 steps produces at least
one spike, and every recorded spike occurs on a step whose pre-reset
integrated potential is at least 1.0. -/
theorem scenario_produces_spike :
    (∃ k, k < 1000 ∧ (scenarioRun (k + 1)).spike 0 = 1) ∧
    (∀ (k : ℕ) (i : Fin 1),
      (scenarioRun (k + 1)).spike i = 1 → 1 ≤ scenarioPreV k i) := by
  constructor
  · by_contra hcon
    push_neg at hcon
    have hns : ∀ k < 500, (scenarioRun (k + 1)).spike 0 ≠ 1 :=
      fun k hk => hcon k (by omega)
    have hlow := scenario_lower 500 le_rfl hns
    obtain ⟨hlt, hVeq⟩ := scenario_noSpike 499 (hcon 499 (by norm_num))
    have h500 : (499 : ℕ) + 1 = 500 := rfl
    rw [h500] at hVeq
    have hpow : ((999 : ℝ) / 1000) ^ 500 ≤ 2 / 3 := by norm_num
    rw [hVeq] at hlow
    nlinarith [hlow, hlt, hpow]
  · intro k i h
    by_cases hth : (1 : ℝ) ≤ scenarioPreV k i
    · exact hth
    · rw [scenario_step_spike k i, if_neg hth] at h
      norm_num at h

end RomainLIF
